import Mathlib

/-!
Verification development for `mdc_queue.py`, an event-driven simulation of an
M/D/c queue (Poisson arrivals, deterministic service time, `c` servers).

The embedding below mirrors the `simulate` function of the source.  Machine
floats are modelled as rationals, the process-wide random source
(`random.expovariate(l)`) is modelled as an explicit stream `draws : ℕ → ℚ` of
sampled interarrival times together with a cursor `rix` in the state, and the
binary heap `events` is modelled as a bag (a list) with a pop-minimum
operation under the Python tuple order `(time, event-kind code, payload)`.
Run-time failures of the Python code (a failing `assert`, a `TypeError` on an
impossible payload, a `ZeroDivisionError` in the statistics finalization) are
modelled as `none`.
-/

/-- Event kinds: `ev_input, ev_done = range(2)` (source line 32). -/
inductive EvType where
  | input
  | done
deriving DecidableEq

/-- The integer code of an event kind, the second slot of the Python tuple. -/
def kindCode : EvType → ℕ
  | EvType.input => 0
  | EvType.done => 1

/-- A scheduled event, the Python tuple `(time, evtype, start)`.  The third
slot is `None` for arrival events and the arrival timestamp for completion
events, hence an `Option ℚ`. -/
structure Event where
  time : ℚ
  etype : EvType
  start : Option ℚ
deriving DecidableEq

/-- Order on the third tuple slot.  Python only ever compares two `None`s
(equal) or two floats here; the mixed cases never arise between events of
equal time and kind and are given a fixed value for totality. -/
def payLe : Option ℚ → Option ℚ → Prop
  | none, _ => True
  | some _, none => False
  | some x, some y => x ≤ y

instance : ∀ a b : Option ℚ, Decidable (payLe a b)
  | none, _ => isTrue trivial
  | some _, none => isFalse fun h => h
  | some x, some y => inferInstanceAs (Decidable (x ≤ y))

/-- The lexicographic tuple order `(time, kind code, payload)` used by
`heapq` on the Python event tuples. -/
def evLe (a b : Event) : Prop :=
  a.time < b.time ∨
    (a.time = b.time ∧
      (kindCode a.etype < kindCode b.etype ∨
        (kindCode a.etype = kindCode b.etype ∧ payLe a.start b.start)))

instance (a b : Event) : Decidable (evLe a b) := by
  unfold evLe
  infer_instance

/-- Pop a minimal element (under the tuple order) from the bag of pending
events; `none` on an empty bag.  This is the observable behaviour of
`heapq.heappop` (source line 69). -/
def popMin : List Event → Option (Event × List Event)
  | [] => none
  | e :: es =>
    match popMin es with
    | none => some (e, [])
    | some (m, rest) => if evLe e m then some (e, es) else some (m, e :: rest)

/-- The statistics dictionary initialised at source lines 51-63. -/
structure Stats where
  input_events : ℕ
  done_events : ℕ
  completed_without_queueing : ℕ
  completed_with_queueing : ℕ
  avg_wait_time : ℚ
  avg_completion_time : ℚ
  avg_queue_depth : ℚ
  max_queue_depth : ℕ
  served_immediately : ℕ
  wait_gt_twait : ℕ
  wait_lt_twait : ℕ
deriving DecidableEq

/-- All statistics start at zero (source lines 51-63). -/
def initStats : Stats :=
  { input_events := 0, done_events := 0, completed_without_queueing := 0,
    completed_with_queueing := 0, avg_wait_time := 0, avg_completion_time := 0,
    avg_queue_depth := 0, max_queue_depth := 0, served_immediately := 0,
    wait_gt_twait := 0, wait_lt_twait := 0 }

/-- The simulation parameters extracted at source lines 37-42: arrival rate
`l`, service time `d = 1/u`, server count `c`, wait threshold `twait` and
horizon `endtime`. -/
structure Params where
  l : ℚ
  d : ℚ
  c : ℤ
  twait : ℚ
  endtime : ℚ
deriving DecidableEq

/-- The mutable simulation state of `simulate`: pending events, FIFO waiting
queue of arrival timestamps, busy-server count, timestamp of the last
queue-depth sample, running statistics, and the cursor into the random
stream. -/
structure SimState where
  events : List Event
  queue : List ℚ
  servers_occupied : ℤ
  last_queue_update : ℚ
  stats : Stats
  rix : ℕ
deriving DecidableEq

/-- Initial state (source lines 44-48): one pending arrival at the first
sampled interarrival time, empty queue, no busy server. -/
def initState (draws : ℕ → ℚ) : SimState :=
  { events := [⟨draws 0, EvType.input, none⟩], queue := [],
    servers_occupied := 0, last_queue_update := 0, stats := initStats,
    rix := 1 }

/-- Arrival with a free server (source lines 75-80 and 87-88): occupy a
server, count the job as served immediately, schedule its completion at
`now + d`, and schedule the next arrival at `now + draws rix`. -/
def serveNow (p : Params) (draws : ℕ → ℚ) (s : SimState) (ev : Event)
    (rest : List Event) : SimState :=
  { s with
    events := ⟨ev.time + p.d, EvType.done, some ev.time⟩ ::
      ⟨ev.time + draws s.rix, EvType.input, none⟩ :: rest,
    servers_occupied := s.servers_occupied + 1,
    stats := { s.stats with
      input_events := s.stats.input_events + 1,
      served_immediately := s.stats.served_immediately + 1 },
    rix := s.rix + 1 }

/-- Arrival with all servers busy (source lines 81-88): sample the
time-weighted queue depth with the pre-append length, update the max-depth
statistic with the pre-append length, append the arrival time to the queue
tail, and schedule the next arrival. -/
def enqueueJob (draws : ℕ → ℚ) (s : SimState) (ev : Event)
    (rest : List Event) : SimState :=
  { s with
    events := ⟨ev.time + draws s.rix, EvType.input, none⟩ :: rest,
    queue := s.queue ++ [ev.time],
    last_queue_update := ev.time,
    stats := { s.stats with
      input_events := s.stats.input_events + 1,
      avg_queue_depth := s.stats.avg_queue_depth +
        (ev.time - s.last_queue_update) * (s.queue.length : ℚ),
      max_queue_depth := max s.stats.max_queue_depth s.queue.length },
    rix := s.rix + 1 }

/-- Completion with an empty backlog (source lines 89-95): free the server
and record the completion. -/
def finishIdle (s : SimState) (rest : List Event) (ev : Event) (a : ℚ) :
    SimState :=
  { s with
    events := rest,
    servers_occupied := s.servers_occupied - 1,
    stats := { s.stats with
      done_events := s.stats.done_events + 1,
      avg_completion_time := s.stats.avg_completion_time + (ev.time - a) } }

/-- Completion with a backlog (source lines 89-108): record the completion,
sample the time-weighted queue depth with the pre-pop length, pop the oldest
waiting arrival `w`, put it in service, schedule its completion at
`now + d`, and classify its wait against the threshold. -/
def finishDequeue (p : Params) (s : SimState) (rest : List Event) (ev : Event)
    (a w : ℚ) (qrest : List ℚ) : SimState :=
  { s with
    events := ⟨ev.time + p.d, EvType.done, some w⟩ :: rest,
    queue := qrest,
    servers_occupied := s.servers_occupied - 1 + 1,
    last_queue_update := ev.time,
    stats := { s.stats with
      done_events := s.stats.done_events + 1,
      avg_completion_time := s.stats.avg_completion_time + (ev.time - a),
      avg_queue_depth := s.stats.avg_queue_depth +
        (ev.time - s.last_queue_update) * ((w :: qrest).length : ℚ),
      avg_wait_time := s.stats.avg_wait_time + (ev.time - w),
      wait_gt_twait := if p.twait < ev.time - w then s.stats.wait_gt_twait + 1
        else s.stats.wait_gt_twait,
      wait_lt_twait := if p.twait < ev.time - w then s.stats.wait_lt_twait
        else s.stats.wait_lt_twait + 1 } }

/-- Outcome of one iteration of the `while True` loop: `halt` when the popped
event was beyond the horizon (the `break` at line 71; the popped event is
discarded), `next` when it was dispatched. -/
inductive StepOut where
  | halt (s : SimState)
  | next (s : SimState)
deriving DecidableEq

/-- One iteration of the event loop (source lines 67-108).  `none` models a
crash: the `assert` on a drained event list (line 68, pop from nothing), the
`assert len(queue) == 0` (line 77), the `assert 0 <= servers_occupied < c`
(line 92), or a `None` payload on a completion event (a `TypeError` at line
94, never reachable). -/
def step (p : Params) (draws : ℕ → ℚ) (s : SimState) : Option StepOut :=
  match popMin s.events with
  | none => none
  | some (ev, rest) =>
    if p.endtime < ev.time then some (StepOut.halt { s with events := rest })
    else
      match ev.etype with
      | EvType.input =>
        if s.servers_occupied < p.c then
          if s.queue = [] then some (StepOut.next (serveNow p draws s ev rest))
          else none
        else some (StepOut.next (enqueueJob draws s ev rest))
      | EvType.done =>
        match ev.start with
        | none => none
        | some a =>
          if 0 ≤ s.servers_occupied - 1 ∧ s.servers_occupied - 1 < p.c then
            match s.queue with
            | [] => some (StepOut.next (finishIdle s rest ev a))
            | w :: qrest =>
              some (StepOut.next (finishDequeue p s rest ev a w qrest))
          else none

/-- The driver loop, run with explicit fuel (the Python loop has no bound of
its own; every claim about a finished run quantifies over the fuel).  `none`
means the fuel ran out or an iteration crashed. -/
def simLoop (p : Params) (draws : ℕ → ℚ) : ℕ → SimState → Option SimState
  | 0, _ => none
  | n + 1, s =>
    match step p draws s with
    | none => none
    | some (StepOut.halt t) => some t
    | some (StepOut.next t) => simLoop p draws n t

/-- The finalized statistics returned by `simulate` (wall-clock elapsed time
is omitted: it is a diagnostic with no model). -/
structure FinalStats where
  input_events : ℕ
  done_events : ℕ
  completed_without_queueing : ℕ
  completed_with_queueing : ℕ
  avg_wait_time : ℚ
  avg_completion_time : ℚ
  avg_queue_depth : ℚ
  max_queue_depth : ℕ
  served_immediately : ℚ
  wait_gt_twait : ℚ
  wait_lt_twait : ℚ
  queue_end_len : ℕ
  events_end_len : ℕ
deriving DecidableEq

/-- Statistics finalization (source lines 112-120).  The Python code divides
by `stats['done_events']` (line 112) and by `endtime` (line 114) with no
guard: a zero divisor raises `ZeroDivisionError`, modelled as `none`. -/
def finalize (p : Params) (s : SimState) : Option FinalStats :=
  if s.stats.done_events = 0 then none
  else if p.endtime = 0 then none
  else some
    { input_events := s.stats.input_events,
      done_events := s.stats.done_events,
      completed_without_queueing := s.stats.completed_without_queueing,
      completed_with_queueing := s.stats.completed_with_queueing,
      avg_wait_time := s.stats.avg_wait_time / (s.stats.done_events : ℚ),
      avg_completion_time :=
        s.stats.avg_completion_time / (s.stats.done_events : ℚ),
      avg_queue_depth := s.stats.avg_queue_depth / p.endtime,
      max_queue_depth := s.stats.max_queue_depth,
      served_immediately :=
        (s.stats.served_immediately : ℚ) / (s.stats.done_events : ℚ),
      wait_gt_twait := (s.stats.wait_gt_twait : ℚ) / (s.stats.done_events : ℚ),
      wait_lt_twait := (s.stats.wait_lt_twait : ℚ) / (s.stats.done_events : ℚ),
      queue_end_len := s.queue.length,
      events_end_len := s.events.length }

/-- The whole of `simulate` after parameter extraction: run the event loop
from the initial state, then finalize the statistics. -/
def simulate (p : Params) (draws : ℕ → ℚ) (fuel : ℕ) : Option FinalStats :=
  (simLoop p draws fuel (initState draws)).bind (fun s => finalize p s)

/-- A YAML scalar as seen by `get_param`: a Python `int`, `float`, or some
other type (represented by a string). -/
inductive PyVal where
  | vint (n : ℤ)
  | vfloat (q : ℚ)
  | vstr (s : String)
deriving DecidableEq

/-- `isinstance(value, (int, float))`. -/
def isNumber : PyVal → Bool
  | PyVal.vint _ => true
  | PyVal.vfloat _ => true
  | PyVal.vstr _ => false

/-- `isinstance(value, int)`. -/
def isIntVal : PyVal → Bool
  | PyVal.vint _ => true
  | _ => false

/-- Numeric value of a parameter, defined only after a type check passed. -/
def toRat : PyVal → ℚ
  | PyVal.vint n => (n : ℚ)
  | PyVal.vfloat q => q
  | PyVal.vstr _ => 0

/-- Integer value of a parameter, defined only after an `int` check passed. -/
def asInt : PyVal → ℤ
  | PyVal.vint n => n
  | _ => 0

/-- `get_param` (source lines 24-29): fetch a parameter from the config
mapping and check its type; a missing value or a type mismatch prints an
error and exits, modelled as `none`.  No other validation is performed. -/
def get_param (value : Option PyVal) (typ : PyVal → Bool) : Option PyVal :=
  match value with
  | none => none
  | some v => if typ v then some v else none

/-- The configuration mapping restricted to the five keys `simulate` reads. -/
structure RawConfig where
  l : Option PyVal
  u : Option PyVal
  c : Option PyVal
  twait : Option PyVal
  endtime : Option PyVal
deriving DecidableEq

/-- Parameter extraction at the head of `simulate` (source lines 37-42), in
source order: `l`, `u`, `d = 1/u` (a `ZeroDivisionError` when `u = 0`,
modelled as `none`), `c`, `twait`, `endtime`. -/
def readParams (cfg : RawConfig) : Option Params :=
  match get_param cfg.l isNumber with
  | none => none
  | some lv =>
    match get_param cfg.u isNumber with
    | none => none
    | some uv =>
      if toRat uv = 0 then none
      else
        match get_param cfg.c isIntVal with
        | none => none
        | some cv =>
          match get_param cfg.twait isNumber with
          | none => none
          | some tv =>
            match get_param cfg.endtime isNumber with
            | none => none
            | some ev =>
              some { l := toRat lv, d := 1 / toRat uv, c := asInt cv,
                     twait := toRat tv, endtime := toRat ev }

/-- States reachable by dispatched iterations of the event loop, starting
from the initial state. -/
inductive Reaches (p : Params) (draws : ℕ → ℚ) : SimState → Prop where
  | init : Reaches p draws (initState draws)
  | step {s s' : SimState} : Reaches p draws s →
      step p draws s = some (StepOut.next s') → Reaches p draws s'

/-- Number of pending completion events. -/
def countDone (es : List Event) : ℕ :=
  es.countP (fun e => e.etype == EvType.done)

/-! ### Order lemmas for the tuple order -/

theorem payLe_refl (a : Option ℚ) : payLe a a := by
  cases a <;> simp [payLe]

theorem payLe_total (a b : Option ℚ) : payLe a b ∨ payLe b a := by
  cases a <;> cases b <;> simp [payLe] <;> exact le_total _ _

theorem payLe_trans {a b c : Option ℚ} (h1 : payLe a b) (h2 : payLe b c) :
    payLe a c := by
  cases a <;> cases b <;> cases c <;> simp [payLe] at * <;> exact h1.trans h2

theorem evLe_refl (a : Event) : evLe a a := by
  unfold evLe
  exact Or.inr ⟨rfl, Or.inr ⟨rfl, payLe_refl _⟩⟩

theorem evLe_total (a b : Event) : evLe a b ∨ evLe b a := by
  unfold evLe
  rcases lt_trichotomy a.time b.time with h | h | h
  · exact Or.inl (Or.inl h)
  · rcases lt_trichotomy (kindCode a.etype) (kindCode b.etype) with k | k | k
    · exact Or.inl (Or.inr ⟨h, Or.inl k⟩)
    · rcases payLe_total a.start b.start with p | p
      · exact Or.inl (Or.inr ⟨h, Or.inr ⟨k, p⟩⟩)
      · exact Or.inr (Or.inr ⟨h.symm, Or.inr ⟨k.symm, p⟩⟩)
    · exact Or.inr (Or.inr ⟨h.symm, Or.inl k⟩)
  · exact Or.inr (Or.inl h)

theorem evLe_trans {a b c : Event} (h1 : evLe a b) (h2 : evLe b c) :
    evLe a c := by
  unfold evLe at *
  rcases h1 with h1 | ⟨ht1, h1⟩
  · rcases h2 with h2 | ⟨ht2, _⟩
    · exact Or.inl (h1.trans h2)
    · exact Or.inl (ht2 ▸ h1)
  · rcases h2 with h2 | ⟨ht2, h2⟩
    · exact Or.inl (ht1 ▸ h2)
    · refine Or.inr ⟨ht1.trans ht2, ?_⟩
      rcases h1 with h1 | ⟨hk1, h1⟩
      · rcases h2 with h2 | ⟨hk2, _⟩
        · exact Or.inl (h1.trans h2)
        · exact Or.inl (hk2 ▸ h1)
      · rcases h2 with h2 | ⟨hk2, h2⟩
        · exact Or.inl (hk1 ▸ h2)
        · exact Or.inr ⟨hk1.trans hk2, payLe_trans h1 h2⟩

theorem evLe_time {a b : Event} (h : evLe a b) : a.time ≤ b.time := by
  rcases h with h | ⟨h, _⟩
  · exact le_of_lt h
  · exact le_of_eq h

/-! ### Properties of `popMin` -/

theorem popMin_eq_none {es : List Event} (h : popMin es = none) : es = [] := by
  cases es with
  | nil => rfl
  | cons e es =>
    simp only [popMin] at h
    rcases hm : popMin es with _ | ⟨m, rest⟩ <;> rw [hm] at h
    · simp at h
    · by_cases hle : evLe e m <;> simp [hle] at h

theorem popMin_perm {es : List Event} {m : Event} {rest : List Event}
    (h : popMin es = some (m, rest)) : es.Perm (m :: rest) := by
  induction es generalizing m rest with
  | nil => simp [popMin] at h
  | cons e es ih =>
    simp only [popMin] at h
    rcases hm : popMin es with _ | ⟨m', rest'⟩ <;> rw [hm] at h
    · have : es = [] := popMin_eq_none hm
      subst this
      simp at h
      rw [h.1, h.2]
    · by_cases hle : evLe e m' <;> simp [hle] at h
      · rw [← h.1, ← h.2]
      · rw [← h.1, ← h.2]
        exact ((ih hm).cons e).trans (List.Perm.swap m' e rest')

theorem popMin_mem {es : List Event} {m : Event} {rest : List Event}
    (h : popMin es = some (m, rest)) : m ∈ es :=
  (popMin_perm h).mem_iff.mpr (List.mem_cons_self m rest)

theorem popMin_rest_subset {es : List Event} {m : Event} {rest : List Event}
    (h : popMin es = some (m, rest)) : ∀ x ∈ rest, x ∈ es := fun x hx =>
  (popMin_perm h).mem_iff.mpr (List.mem_cons_of_mem m hx)

theorem popMin_min {es : List Event} {m : Event} {rest : List Event}
    (h : popMin es = some (m, rest)) : ∀ x ∈ es, evLe m x := by
  induction es generalizing m rest with
  | nil => simp [popMin] at h
  | cons e es ih =>
    simp only [popMin] at h
    rcases hm : popMin es with _ | ⟨m', rest'⟩ <;> rw [hm] at h
    · have : es = [] := popMin_eq_none hm
      subst this
      simp at h
      intro x hx
      simp at hx
      rw [hx, ← h.1]
      exact evLe_refl e
    · by_cases hle : evLe e m' <;> simp [hle] at h
      · intro x hx
        rcases List.mem_cons.mp hx with hx | hx
        · rw [hx, ← h.1]
          exact evLe_refl e
        · exact h.1 ▸ evLe_trans hle (ih hm x hx)
      · intro x hx
        rcases List.mem_cons.mp hx with hx | hx
        · rw [hx, ← h.1]
          rcases evLe_total e m' with ht | ht
          · exact absurd ht hle
          · exact ht
        · exact h.1 ▸ ih hm x hx

theorem popMin_countDone {es : List Event} {m : Event} {rest : List Event}
    (h : popMin es = some (m, rest)) :
    countDone es = (if m.etype = EvType.done then 1 else 0) + countDone rest := by
  have hp := (popMin_perm h).countP_eq (fun e => e.etype == EvType.done)
  unfold countDone
  rw [hp, List.countP_cons]
  by_cases hm : m.etype = EvType.done <;> simp [hm] <;> omega

/-! ### Case analysis of one loop iteration -/

theorem step_halt_elim {p : Params} {draws : ℕ → ℚ} {s t : SimState}
    (h : step p draws s = some (StepOut.halt t)) :
    ∃ ev rest, popMin s.events = some (ev, rest) ∧ p.endtime < ev.time ∧
      t = { s with events := rest } := by
  unfold step at h
  split at h
  · exact absurd h (by simp)
  next ev rest hpm =>
    split at h
    next hh =>
      refine ⟨ev, rest, hpm, hh, ?_⟩
      simp at h
      exact h.symm
    next hh =>
      exfalso
      split at h
      · split at h
        · split at h <;> simp at h
        · simp at h
      · split at h
        · simp at h
        · split at h
          · split at h <;> simp at h
          · simp at h

theorem step_next_elim {p : Params} {draws : ℕ → ℚ} {s s' : SimState}
    (h : step p draws s = some (StepOut.next s')) :
    ∃ ev rest, popMin s.events = some (ev, rest) ∧ ¬ p.endtime < ev.time ∧
      ((ev.etype = EvType.input ∧ s.servers_occupied < p.c ∧ s.queue = [] ∧
          s' = serveNow p draws s ev rest) ∨
       (ev.etype = EvType.input ∧ ¬ s.servers_occupied < p.c ∧
          s' = enqueueJob draws s ev rest) ∨
       (∃ a, ev.etype = EvType.done ∧ ev.start = some a ∧
          0 ≤ s.servers_occupied - 1 ∧ s.servers_occupied - 1 < p.c ∧
          s.queue = [] ∧ s' = finishIdle s rest ev a) ∨
       (∃ a w qrest, ev.etype = EvType.done ∧ ev.start = some a ∧
          0 ≤ s.servers_occupied - 1 ∧ s.servers_occupied - 1 < p.c ∧
          s.queue = w :: qrest ∧ s' = finishDequeue p s rest ev a w qrest)) := by
  unfold step at h
  split at h
  · exact absurd h (by simp)
  next ev rest hpm =>
    split at h
    next hh => simp at h
    next hh =>
      refine ⟨ev, rest, hpm, hh, ?_⟩
      split at h
      next hET =>
        split at h
        next hc =>
          split at h
          next hq =>
            simp at h
            exact Or.inl ⟨hET, hc, hq, h.symm⟩
          next hq => simp at h
        next hc =>
          simp at h
          exact Or.inr (Or.inl ⟨hET, hc, h.symm⟩)
      next hET =>
        split at h
        next hst => simp at h
        next a hst =>
          split at h
          next hocc =>
            split at h
            next hq =>
              simp at h
              exact Or.inr (Or.inr (Or.inl ⟨a, hET, hst, hocc.1, hocc.2, hq, h.symm⟩))
            next w qrest hq =>
              simp at h
              exact Or.inr (Or.inr (Or.inr ⟨a, w, qrest, hET, hst, hocc.1, hocc.2, hq, h.symm⟩))
          next hocc => simp at h

/-! ### Loop invariants -/

theorem countDone_cons (e : Event) (es : List Event) :
    countDone (e :: es) =
      (if e.etype = EvType.done then 1 else 0) + countDone es := by
  unfold countDone
  rw [List.countP_cons]
  by_cases h : e.etype = EvType.done <;> simp [h] <;> omega

/-- Counting invariants of the event loop: non-negative occupancy, every
pending completion event occupies a server, conservation of jobs
(arrivals = completions + in service + waiting), every service start was
counted exactly once (immediately or through a wait classification), and the
two dead counters stay zero. -/
structure Inv0 (s : SimState) : Prop where
  occ_nonneg : 0 ≤ s.servers_occupied
  conserv : (s.stats.input_events : ℤ) =
    (s.stats.done_events : ℤ) + s.servers_occupied + s.queue.length
  starts : (s.stats.served_immediately : ℤ) + (s.stats.wait_lt_twait : ℤ) +
    (s.stats.wait_gt_twait : ℤ) = (s.stats.done_events : ℤ) + s.servers_occupied
  no_q_zero : s.stats.completed_without_queueing = 0
  with_q_zero : s.stats.completed_with_queueing = 0
  done_count : (countDone s.events : ℤ) = s.servers_occupied

theorem inv0_init (draws : ℕ → ℚ) : Inv0 (initState draws) := by
  refine ⟨?_, ?_, ?_, ?_, ?_, ?_⟩ <;>
    simp [initState, initStats, countDone]

theorem inv0_step {p : Params} {draws : ℕ → ℚ} {s s' : SimState} (h0 : Inv0 s)
    (hs : step p draws s = some (StepOut.next s')) : Inv0 s' := by
  obtain ⟨ev, rest, hpm, hh, hbr⟩ := step_next_elim hs
  have hcd := popMin_countDone hpm
  obtain ⟨hnn, hcons, hstarts, hz1, hz2, hdc⟩ := h0
  rcases hbr with ⟨hET, hc, hq, rfl⟩ | ⟨hET, hc, rfl⟩ |
    ⟨a, hET, hst, h1, h2, hq, rfl⟩ | ⟨a, w, qrest, hET, hst, h1, h2, hq, rfl⟩
  · have hcdr : (countDone rest : ℤ) = s.servers_occupied := by
      rw [hET] at hcd
      simp at hcd
      omega
    refine ⟨?_, ?_, ?_, ?_, ?_, ?_⟩
    · simp only [serveNow]
      omega
    · simp [serveNow, hq] at hcons ⊢
      omega
    · simp only [serveNow]
      push_cast
      omega
    · simpa [serveNow] using hz1
    · simpa [serveNow] using hz2
    · simp [serveNow, countDone_cons]
      omega
  · have hcdr : (countDone rest : ℤ) = s.servers_occupied := by
      rw [hET] at hcd
      simp at hcd
      omega
    refine ⟨?_, ?_, ?_, ?_, ?_, ?_⟩
    · simp only [enqueueJob]
      omega
    · simp [enqueueJob]
      push_cast
      omega
    · simp only [enqueueJob]
      push_cast
      omega
    · simpa [enqueueJob] using hz1
    · simpa [enqueueJob] using hz2
    · simp [enqueueJob, countDone_cons]
      omega
  · have hcdr : (countDone rest : ℤ) = s.servers_occupied - 1 := by
      rw [hET] at hcd
      simp at hcd
      omega
    refine ⟨?_, ?_, ?_, ?_, ?_, ?_⟩
    · simp only [finishIdle]
      omega
    · simp [finishIdle, hq] at hcons ⊢
      omega
    · simp only [finishIdle]
      push_cast
      omega
    · simpa [finishIdle] using hz1
    · simpa [finishIdle] using hz2
    · simp only [finishIdle]
      omega
  · have hcdr : (countDone rest : ℤ) = s.servers_occupied - 1 := by
      rw [hET] at hcd
      simp at hcd
      omega
    have hql : s.queue.length = qrest.length + 1 := by
      rw [hq]
      simp
    refine ⟨?_, ?_, ?_, ?_, ?_, ?_⟩
    · simp only [finishDequeue]
      omega
    · simp only [finishDequeue]
      rw [hql] at hcons
      push_cast at hcons ⊢
      omega
    · by_cases hw : p.twait < ev.time - w <;>
        simp only [finishDequeue, hw, if_pos, if_neg, if_true, if_false] <;>
        push_cast <;> omega
    · simpa [finishDequeue] using hz1
    · simpa [finishDequeue] using hz2
    · simp [finishDequeue, countDone_cons]
      omega

/-- Occupancy stays below the server count, and the waiting queue is
non-empty only when every server is busy. -/
structure InvC (p : Params) (s : SimState) : Prop where
  occ_le : s.servers_occupied ≤ p.c
  queue_occ : s.queue ≠ [] → s.servers_occupied = p.c

theorem invC_init {p : Params} (draws : ℕ → ℚ) (hc : 0 ≤ p.c) :
    InvC p (initState draws) := by
  refine ⟨by simpa [initState] using hc, by simp [initState]⟩

theorem invC_step {p : Params} {draws : ℕ → ℚ} {s s' : SimState}
    (h0 : InvC p s) (hs : step p draws s = some (StepOut.next s')) :
    InvC p s' := by
  obtain ⟨ev, rest, hpm, hh, hbr⟩ := step_next_elim hs
  obtain ⟨hle, hqo⟩ := h0
  rcases hbr with ⟨hET, hc, hq, rfl⟩ | ⟨hET, hc, rfl⟩ |
    ⟨a, hET, hst, h1, h2, hq, rfl⟩ | ⟨a, w, qrest, hET, hst, h1, h2, hq, rfl⟩
  · exact ⟨by simp [serveNow]; omega, by simp [serveNow, hq]⟩
  · exact ⟨by simp [enqueueJob]; omega, fun _ => by simp [enqueueJob]; omega⟩
  · exact ⟨by simp [finishIdle]; omega, by simp [finishIdle, hq]⟩
  · refine ⟨by simp [finishDequeue]; omega, fun hne => ?_⟩
    have : s.queue ≠ [] := by rw [hq]; simp
    have := hqo this
    simp [finishDequeue] at hne ⊢
    omega

/-- Timing invariants: the queue-depth sample clock is non-negative, never
beyond the horizon, never ahead of any pending event, and the accumulated
queue-depth area lies between `0` and `(max depth + 1) ×` the clock, while
the live queue is never longer than `max depth + 1`. -/
structure InvT (p : Params) (s : SimState) : Prop where
  lqu_nonneg : 0 ≤ s.last_queue_update
  lqu_le : s.last_queue_update ≤ max p.endtime 0
  times_ge : ∀ e ∈ s.events, s.last_queue_update ≤ e.time
  area_nonneg : 0 ≤ s.stats.avg_queue_depth
  area_le : s.stats.avg_queue_depth ≤
    ((s.stats.max_queue_depth : ℚ) + 1) * s.last_queue_update
  qlen_le : s.queue.length ≤ s.stats.max_queue_depth + 1

theorem invT_init {p : Params} (draws : ℕ → ℚ) (hdr : ∀ i, 0 ≤ draws i) :
    InvT p (initState draws) := by
  refine ⟨le_refl 0, le_max_right _ _, ?_, ?_, ?_, ?_⟩ <;>
    simp [initState, initStats]
  exact hdr 0

theorem invT_step {p : Params} {draws : ℕ → ℚ} {s s' : SimState}
    (hd : 0 ≤ p.d) (hdr : ∀ i, 0 ≤ draws i) (h0 : InvT p s)
    (hs : step p draws s = some (StepOut.next s')) : InvT p s' := by
  obtain ⟨ev, rest, hpm, hh, hbr⟩ := step_next_elim hs
  obtain ⟨hlnn, hlle, htge, hann, hale, hqle⟩ := h0
  have hevmem : ev ∈ s.events := popMin_mem hpm
  have hevt : s.last_queue_update ≤ ev.time := htge ev hevmem
  have hrest : ∀ e ∈ rest, ev.time ≤ e.time := fun e he =>
    evLe_time (popMin_min hpm e (popMin_rest_subset hpm e he))
  have hevend : ev.time ≤ max p.endtime 0 :=
    le_trans (not_lt.mp hh) (le_max_left _ _)
  rcases hbr with ⟨hET, hc, hq, rfl⟩ | ⟨hET, hc, rfl⟩ |
    ⟨a, hET, hst, h1, h2, hq, rfl⟩ | ⟨a, w, qrest, hET, hst, h1, h2, hq, rfl⟩
  · refine ⟨hlnn, hlle, ?_, hann, hale, hqle⟩
    intro e he
    simp only [serveNow, List.mem_cons] at he
    rcases he with rfl | rfl | he
    · simp [serveNow]
      linarith
    · simp [serveNow]
      have := hdr s.rix
      linarith
    · exact htge e (popMin_rest_subset hpm e he)
  · have hmax : (s.stats.max_queue_depth : ℚ) ≤
        ((max s.stats.max_queue_depth s.queue.length : ℕ) : ℚ) :=
      Nat.cast_le.mpr (Nat.le_max_left _ _)
    have hlen : (s.queue.length : ℚ) ≤
        ((max s.stats.max_queue_depth s.queue.length : ℕ) : ℚ) + 1 :=
      le_trans (Nat.cast_le.mpr (Nat.le_max_right _ _)) (by linarith)
    refine ⟨le_trans hlnn hevt, hevend, ?_, ?_, ?_, ?_⟩
    · intro e he
      simp only [enqueueJob, List.mem_cons] at he
      rcases he with rfl | he
      · simp [enqueueJob]
        have := hdr s.rix
        linarith
      · simp only [enqueueJob]
        exact hrest e he
    · simp only [enqueueJob]
      have h0 : 0 ≤ (ev.time - s.last_queue_update) * (s.queue.length : ℚ) :=
        mul_nonneg (by linarith) (by positivity)
      linarith
    · simp only [enqueueJob]
      nlinarith [mul_nonneg (sub_nonneg.mpr hevt) (sub_nonneg.mpr hlen),
        mul_nonneg (sub_nonneg.mpr hmax) hlnn, hale]
    · simp only [enqueueJob, List.length_append, List.length_cons,
        List.length_nil]
      have := Nat.le_max_right s.stats.max_queue_depth s.queue.length
      omega
  · refine ⟨hlnn, hlle, ?_, hann, hale, hqle⟩
    intro e he
    simp only [finishIdle] at he
    exact htge e (popMin_rest_subset hpm e he)
  · have hlenq : ((w :: qrest).length : ℚ) ≤ (s.stats.max_queue_depth : ℚ) + 1 := by
      rw [hq] at hqle
      exact_mod_cast hqle
    refine ⟨le_trans hlnn hevt, hevend, ?_, ?_, ?_, ?_⟩
    · intro e he
      simp only [finishDequeue, List.mem_cons] at he
      rcases he with rfl | he
      · simp [finishDequeue]
        linarith
      · simp only [finishDequeue]
        exact hrest e he
    · simp only [finishDequeue]
      have h0 : 0 ≤ (ev.time - s.last_queue_update) * ((w :: qrest).length : ℚ) :=
        mul_nonneg (by linarith) (by positivity)
      linarith
    · simp only [finishDequeue]
      nlinarith [mul_nonneg (sub_nonneg.mpr hevt) (sub_nonneg.mpr hlenq), hale]
    · simp only [finishDequeue]
      rw [hq] at hqle
      simp at hqle ⊢
      omega

theorem reaches_inv0 {p : Params} {draws : ℕ → ℚ} {s : SimState}
    (h : Reaches p draws s) : Inv0 s := by
  induction h with
  | init => exact inv0_init draws
  | step _ hs ih => exact inv0_step ih hs

theorem reaches_invC {p : Params} {draws : ℕ → ℚ} {s : SimState}
    (hc : 0 ≤ p.c) (h : Reaches p draws s) : InvC p s := by
  induction h with
  | init => exact invC_init draws hc
  | step _ hs ih => exact invC_step ih hs

theorem reaches_invT {p : Params} {draws : ℕ → ℚ} {s : SimState}
    (hd : 0 ≤ p.d) (hdr : ∀ i, 0 ≤ draws i) (h : Reaches p draws s) :
    InvT p s := by
  induction h with
  | init => exact invT_init draws hdr
  | step _ hs ih => exact invT_step hd hdr ih hs

/-! ### End of a run -/

/-- A finished run of the driver loop: some reachable state popped an event
beyond the horizon, the loop broke, and the final state is that state with
only the popped event removed. -/
theorem simLoop_final {p : Params} {draws : ℕ → ℚ} :
    ∀ (n : ℕ) (s t : SimState), Reaches p draws s →
      simLoop p draws n s = some t →
      ∃ s₀ ev rest, Reaches p draws s₀ ∧ popMin s₀.events = some (ev, rest) ∧
        p.endtime < ev.time ∧ t = { s₀ with events := rest } := by
  intro n
  induction n with
  | zero =>
    intro s t _ h
    simp [simLoop] at h
  | succ n ih =>
    intro s t hr h
    unfold simLoop at h
    split at h
    · exact absurd h (by simp)
    next t' hstep =>
      obtain ⟨ev, rest, hpm, hh, rfl⟩ := step_halt_elim hstep
      exact ⟨s, ev, rest, hr, hpm, hh, by injection h with h2; exact h2.symm⟩
    next t' hstep =>
      exact ih t' t (Reaches.step hr hstep) h

/-- What a successful finalization computes (source lines 112-120). -/
theorem finalize_some {p : Params} {s : SimState} {f : FinalStats}
    (h : finalize p s = some f) :
    s.stats.done_events ≠ 0 ∧ p.endtime ≠ 0 ∧
      f.input_events = s.stats.input_events ∧
      f.done_events = s.stats.done_events ∧
      f.completed_without_queueing = s.stats.completed_without_queueing ∧
      f.completed_with_queueing = s.stats.completed_with_queueing ∧
      f.avg_queue_depth = s.stats.avg_queue_depth / p.endtime ∧
      f.max_queue_depth = s.stats.max_queue_depth := by
  unfold finalize at h
  split at h
  · exact absurd h (by simp)
  next hdn =>
    split at h
    · exact absurd h (by simp)
    next hen =>
      refine ⟨hdn, hen, ?_⟩
      simp at h
      rw [← h]
      simp

/-! ### Concrete runs used as witnesses and counterexamples -/

/-- Parameters of a small healthy run: unit service time, one server,
threshold 1, horizon 10. -/
def pRun : Params := { l := 1, d := 1, c := 1, twait := 1, endtime := 10 }

/-- One arrival at time 1, the next only at time 101 (beyond any horizon
used here). -/
def drawsRun : ℕ → ℚ := fun i => if i = 0 then 1 else 100

/-- The finalized statistics of the run `pRun` / `drawsRun`: one arrival at
time 1, served immediately, completed at time 2, loop stopped by the arrival
scheduled at time 101. -/
def fRun : FinalStats :=
  { input_events := 1, done_events := 1, completed_without_queueing := 0,
    completed_with_queueing := 0, avg_wait_time := 0, avg_completion_time := 1,
    avg_queue_depth := 0, max_queue_depth := 0, served_immediately := 1,
    wait_gt_twait := 0, wait_lt_twait := 0, queue_end_len := 0,
    events_end_len := 0 }

theorem simulate_pRun_eq : simulate pRun drawsRun 10 = some fRun := by
  norm_num [simulate, simLoop, step, popMin, evLe, payLe, kindCode, initState,
    initStats, serveNow, enqueueJob, finishIdle, finishDequeue, finalize, fRun,
    pRun, drawsRun]

/-- The state after dispatching the first arrival of `pRun` / `drawsRun`. -/
def sServe : SimState :=
  serveNow pRun drawsRun (initState drawsRun) ⟨1, EvType.input, none⟩ []

theorem reaches_sServe : Reaches pRun drawsRun sServe :=
  Reaches.step Reaches.init (by
    norm_num [step, popMin, evLe, payLe, kindCode, initState, initStats,
      pRun, drawsRun, sServe])

/-- Same configuration with a zero horizon: the first popped event is already
beyond the horizon, so the run ends with zero completions. -/
def pZero : Params := { l := 1, d := 1, c := 1, twait := 1, endtime := 0 }

/-- Horizon 1 with service time 2: the only arrival (time 1) is served but
its completion (time 3) lies beyond the horizon and is discarded. -/
def pShort : Params := { l := 1, d := 2, c := 1, twait := 1, endtime := 1 }

/-- Service time 2, horizon 20; with `drawsDepth` the queue reaches depth 1
(never sampled by the max statistic) and accumulates positive area. -/
def pDepth : Params := { l := 1, d := 2, c := 1, twait := 3, endtime := 20 }

/-- Arrivals at times 2 and 3 (the second one queues behind the first),
then nothing until time 103. -/
def drawsDepth : ℕ → ℚ := fun i => if i = 0 then 2 else if i = 1 then 1 else 100

/-- A configuration whose values are all present and well typed but whose
arrival rate is negative. -/
def cfgNoCheck : RawConfig :=
  { l := some (PyVal.vfloat (-1)), u := some (PyVal.vint 1),
    c := some (PyVal.vint 1), twait := some (PyVal.vint 1),
    endtime := some (PyVal.vint 10) }

/-- The parameters `readParams` produces from `cfgNoCheck`. -/
def pNoCheck : Params := { l := -1, d := 1, c := 1, twait := 1, endtime := 10 }

/-- `expovariate` of a negative rate yields negative samples without
raising; a constant negative stream models that. -/
def drawsNeg : ℕ → ℚ := fun _ => -(1/2)

/-- Whether a loop iteration dispatched an event (entered the loop body). -/
def isNextStep : Option StepOut → Bool
  | some (StepOut.next _) => true
  | _ => false

/-! ### The claims -/

/-- Claim C1: the spec requires that a run ending with zero completions must
not divide by zero in the finalize step and must return sentinel values.
The code has no such guard: `stats['avg_wait_time'] /= stats['done_events']`
(line 112) raises `ZeroDivisionError` whenever `done_events = 0`.  At the
concrete degenerate input below (horizon `0`, first arrival at time `1`) the
event loop ends with zero completions and `simulate` crashes (`none` in the
embedding) instead of returning statistics. -/
theorem C1_zero_completions_crash :
    (simLoop pZero drawsRun 5 (initState drawsRun)).map
        (fun s => s.stats.done_events) = some 0 ∧
      simulate pZero drawsRun 5 = none := by
  constructor <;>
    norm_num [simulate, simLoop, step, popMin, evLe, payLe, kindCode,
      initState, initStats, finalize, pZero, drawsRun]

/-- Claim C2: at every reachable state of the event loop (the server count
being non-negative, the spec requires it positive), the occupancy satisfies
`0 ≤ servers_occupied ≤ c` and the waiting queue is non-empty only when all
servers are busy.  Proved by induction over the loop transitions, so both
the Arrival and the Completion transition preserve the invariant. -/
theorem C2_occupancy_invariant (p : Params) (draws : ℕ → ℚ) (s : SimState)
    (hc : 0 ≤ p.c) (h : Reaches p draws s) :
    0 ≤ s.servers_occupied ∧ s.servers_occupied ≤ p.c ∧
      (s.queue ≠ [] → s.servers_occupied = p.c) := by
  have h0 := reaches_inv0 h
  have hC := reaches_invC hc h
  exact ⟨h0.occ_nonneg, hC.occ_le, hC.queue_occ⟩

theorem C2_occupancy_invariant_witness :
    0 ≤ pRun.c ∧ Reaches pRun drawsRun sServe ∧
      (0 ≤ sServe.servers_occupied ∧ sServe.servers_occupied ≤ pRun.c ∧
        (sServe.queue ≠ [] → sServe.servers_occupied = pRun.c)) :=
  ⟨by decide, reaches_sServe,
    C2_occupancy_invariant pRun drawsRun sServe (by decide) reaches_sServe⟩

/-- Claim C3 fails on the code: the wait-threshold counters are incremented
when a queued job is dequeued and starts service (lines 100-108), not when a
job completes, while `done_events` counts every completion.  In the run
below one job is served immediately and completes by the horizon, so
`wait_lt_twait + wait_gt_twait = 0` while `done_events = 1`. -/
theorem C3_partition_counterexample :
    (simLoop pRun drawsRun 10 (initState drawsRun)).map
        (fun s => decide (s.stats.wait_lt_twait + s.stats.wait_gt_twait =
          s.stats.done_events)) = some false := by
  norm_num [simLoop, step, popMin, evLe, payLe, kindCode, initState,
    initStats, serveNow, enqueueJob, finishIdle, finishDequeue, pRun, drawsRun]

/-- Claim C3, amended: the two wait-threshold counters partition the jobs
that started service after waiting in the queue, not the completions; at
every reachable state (hence at the end of every run) their sum equals
completions plus busy servers minus jobs served immediately. -/
theorem C3_partition_amended (p : Params) (draws : ℕ → ℚ) (s : SimState)
    (h : Reaches p draws s) :
    (s.stats.wait_lt_twait : ℤ) + s.stats.wait_gt_twait =
      (s.stats.done_events : ℤ) + s.servers_occupied -
        s.stats.served_immediately := by
  have hst := (reaches_inv0 h).starts
  omega

theorem C3_partition_amended_witness :
    Reaches pRun drawsRun sServe ∧
      ((sServe.stats.wait_lt_twait : ℤ) + sServe.stats.wait_gt_twait =
        (sServe.stats.done_events : ℤ) + sServe.servers_occupied -
          sServe.stats.served_immediately) :=
  ⟨reaches_sServe, C3_partition_amended pRun drawsRun sServe reaches_sServe⟩

/-- Claim C4 fails on the code: `served_immediately` is counted at arrival
time and `done_events` at completion time, so a job in service at the
horizon cutoff is counted in the former and never in the latter.  In the run
below (service time 2, horizon 1) the only job is served immediately but its
completion at time 3 is discarded: `served_immediately + waited = 1` while
`done_events = 0`. -/
theorem C4_immediate_counterexample :
    (simLoop pShort drawsRun 10 (initState drawsRun)).map
        (fun s => decide (s.stats.served_immediately +
          (s.stats.wait_lt_twait + s.stats.wait_gt_twait) =
            s.stats.done_events)) = some false := by
  norm_num [simLoop, step, popMin, evLe, payLe, kindCode, initState,
    initStats, serveNow, enqueueJob, finishIdle, finishDequeue, pShort,
    drawsRun]

/-- Claim C4, amended: jobs served immediately plus jobs that waited equal
the service starts, i.e. completions plus jobs still in service
(`servers_occupied`), at every reachable state — the stated equality with
`done_events` alone holds only when no job is in service. -/
theorem C4_immediate_amended (p : Params) (draws : ℕ → ℚ) (s : SimState)
    (h : Reaches p draws s) :
    (s.stats.served_immediately : ℤ) +
        ((s.stats.wait_lt_twait : ℤ) + s.stats.wait_gt_twait) =
      (s.stats.done_events : ℤ) + s.servers_occupied := by
  have hst := (reaches_inv0 h).starts
  omega

theorem C4_immediate_amended_witness :
    Reaches pRun drawsRun sServe ∧
      ((sServe.stats.served_immediately : ℤ) +
          ((sServe.stats.wait_lt_twait : ℤ) + sServe.stats.wait_gt_twait) =
        (sServe.stats.done_events : ℤ) + sServe.servers_occupied) :=
  ⟨reaches_sServe, C4_immediate_amended pRun drawsRun sServe reaches_sServe⟩

/-- Claim C5 fails on the code: `max_queue_depth` is updated with the queue
length *before* an append (line 84) and never on dequeue, so a queue that
reaches depth 1 leaves `max_queue_depth = 0` while the dequeue at line 98
accumulates positive area.  In the run below the finalized average depth is
`1/20` but the max statistic is `0`. -/
theorem C5_avg_depth_counterexample :
    (simulate pDepth drawsDepth 20).map
        (fun f => decide (f.avg_queue_depth ≤ (f.max_queue_depth : ℚ))) =
      some false := by
  norm_num [simulate, simLoop, step, popMin, evLe, payLe, kindCode, initState,
    initStats, serveNow, enqueueJob, finishIdle, finishDequeue, finalize,
    pDepth, drawsDepth]

/-- Claim C5, amended: for non-negative service time and non-negative random
draws, the finalized time-weighted average queue depth is non-negative and
at most `max_queue_depth + 1` (the max statistic lags the true maximum by
one because it samples the pre-append length). -/
theorem C5_avg_depth_amended (p : Params) (draws : ℕ → ℚ) (fuel : ℕ)
    (f : FinalStats) (hd : 0 ≤ p.d) (hdr : ∀ i, 0 ≤ draws i)
    (h : simulate p draws fuel = some f) :
    0 ≤ f.avg_queue_depth ∧
      f.avg_queue_depth ≤ (f.max_queue_depth : ℚ) + 1 := by
  unfold simulate at h
  rcases Option.bind_eq_some.mp h with ⟨t, hloop, hfin⟩
  obtain ⟨s₀, ev, rest, hr, hpm, hh, rfl⟩ :=
    simLoop_final fuel (initState draws) t Reaches.init hloop
  have hT := reaches_invT hd hdr hr
  obtain ⟨hdn, hen, _, _, _, _, havg, hmax⟩ := finalize_some hfin
  simp only at havg hmax
  rw [havg, hmax]
  have h1 : 0 ≤ s₀.stats.avg_queue_depth := hT.area_nonneg
  have h2 : s₀.stats.avg_queue_depth ≤
      ((s₀.stats.max_queue_depth : ℚ) + 1) * s₀.last_queue_update :=
    hT.area_le
  have h3 : 0 ≤ s₀.last_queue_update := hT.lqu_nonneg
  have h4 : s₀.last_queue_update ≤ max p.endtime 0 := hT.lqu_le
  rcases lt_or_gt_of_ne hen with hE | hE
  · have hL0 : s₀.last_queue_update = 0 := by
      rw [max_eq_right (le_of_lt hE)] at h4
      linarith
    have hA0 : s₀.stats.avg_queue_depth = 0 := by
      rw [hL0] at h2
      simp at h2
      linarith
    rw [hA0, zero_div]
    constructor
    · exact le_refl 0
    · positivity
  · have h4' : s₀.last_queue_update ≤ p.endtime := by
      rw [max_eq_left (le_of_lt hE)] at h4
      exact h4
    constructor
    · exact div_nonneg h1 (le_of_lt hE)
    · rw [div_le_iff hE]
      nlinarith [mul_le_mul_of_nonneg_left h4'
        (by positivity : (0 : ℚ) ≤ (s₀.stats.max_queue_depth : ℚ) + 1)]

theorem C5_avg_depth_amended_witness :
    0 ≤ pRun.d ∧ (∀ i, 0 ≤ drawsRun i) ∧
      simulate pRun drawsRun 10 = some fRun ∧
      (0 ≤ fRun.avg_queue_depth ∧
        fRun.avg_queue_depth ≤ (fRun.max_queue_depth : ℚ) + 1) :=
  ⟨by norm_num [pRun], fun i => by unfold drawsRun; split <;> norm_num,
    simulate_pRun_eq,
    C5_avg_depth_amended pRun drawsRun 10 fRun (by norm_num [pRun])
      (fun i => by unfold drawsRun; split <;> norm_num) simulate_pRun_eq⟩

/-- Claim C6 fails on the code: `get_param` (lines 24-29) checks only that a
parameter is present and has the right type; no positivity check exists
anywhere.  Below, a well-typed configuration with arrival rate `-1` passes
parameter extraction unchanged and the event loop is entered (the first
iteration dispatches an arrival). -/
theorem C6_no_positivity_check_counterexample :
    readParams cfgNoCheck = some pNoCheck ∧ pNoCheck.l < 0 ∧
      isNextStep (step pNoCheck drawsNeg (initState drawsNeg)) = true := by
  refine ⟨?_, by norm_num [pNoCheck], ?_⟩
  · norm_num [readParams, get_param, isNumber, isIntVal, toRat, asInt,
      cfgNoCheck, pNoCheck]
  · norm_num [isNextStep, step, popMin, evLe, payLe, kindCode, initState,
      initStats, serveNow, pNoCheck, drawsNeg]

/-- Claim C6, amended: the checks before the loop detect only missing or
wrongly-typed parameters (and `u = 0`, through the `d = 1/u` division); any
well-typed values — including a non-positive arrival rate or server count —
pass `readParams` unchanged, with no clamping and no failure, and the loop
is entered. -/
theorem C6_type_check_only_amended (lq uq tw et : ℚ) (cz : ℤ)
    (hu : uq ≠ 0) :
    readParams
        { l := some (PyVal.vfloat lq), u := some (PyVal.vfloat uq),
          c := some (PyVal.vint cz), twait := some (PyVal.vfloat tw),
          endtime := some (PyVal.vfloat et) } =
      some { l := lq, d := 1 / uq, c := cz, twait := tw, endtime := et } := by
  simp [readParams, get_param, isNumber, isIntVal, toRat, asInt, hu]

theorem C6_type_check_only_amended_witness :
    (1 : ℚ) ≠ 0 ∧
      readParams
          { l := some (PyVal.vfloat (-1)), u := some (PyVal.vfloat 1),
            c := some (PyVal.vint 0), twait := some (PyVal.vfloat 1),
            endtime := some (PyVal.vfloat 10) } =
        some { l := -1, d := 1 / 1, c := 0, twait := 1, endtime := 10 } :=
  ⟨by norm_num, C6_type_check_only_amended (-1) 1 1 10 0 (by norm_num)⟩

/-- Claim C7: at every reachable state the arrival count dominates the
completion count, and they are equal exactly when no job is in flight (no
busy server and an empty waiting queue) — in particular at a horizon cutoff
with work in progress the counts differ. -/
theorem C7_arrivals_dominate (p : Params) (draws : ℕ → ℚ) (s : SimState)
    (h : Reaches p draws s) :
    s.stats.done_events ≤ s.stats.input_events ∧
      (s.stats.input_events = s.stats.done_events ↔
        s.servers_occupied = 0 ∧ s.queue = []) := by
  have h0 := reaches_inv0 h
  have hc := h0.conserv
  have hn := h0.occ_nonneg
  refine ⟨by omega, ⟨fun he => ?_, fun hz => ?_⟩⟩
  · have hlen : s.queue.length = 0 ∧ s.servers_occupied = 0 := by omega
    exact ⟨hlen.2, List.length_eq_zero.mp hlen.1⟩
  · rw [hz.1, hz.2] at hc
    simp at hc
    omega

theorem C7_arrivals_dominate_witness :
    Reaches pRun drawsRun sServe ∧
      (sServe.stats.done_events ≤ sServe.stats.input_events ∧
        (sServe.stats.input_events = sServe.stats.done_events ↔
          sServe.servers_occupied = 0 ∧ sServe.queue = [])) :=
  ⟨reaches_sServe, C7_arrivals_dominate pRun drawsRun sServe reaches_sServe⟩

/-- Claim C8: when the popped event lies beyond the horizon the loop breaks
without dispatching it: the iteration returns `halt` with only that event
removed from the pending bag, and the queue, occupancy and every statistic
(in particular `done_events`) are left exactly as they were — completions in
flight beyond the horizon are never counted. -/
theorem C8_horizon_stops_loop (p : Params) (draws : ℕ → ℚ) (s : SimState)
    (ev : Event) (rest : List Event) (n : ℕ)
    (hpm : popMin s.events = some (ev, rest)) (hh : p.endtime < ev.time) :
    step p draws s = some (StepOut.halt { s with events := rest }) ∧
      simLoop p draws (n + 1) s = some { s with events := rest } ∧
      ({ s with events := rest } : SimState).stats = s.stats ∧
      ({ s with events := rest } : SimState).queue = s.queue ∧
      ({ s with events := rest } : SimState).servers_occupied =
        s.servers_occupied := by
  have hstep : step p draws s = some (StepOut.halt { s with events := rest }) := by
    unfold step
    rw [hpm]
    simp [hh]
  refine ⟨hstep, ?_, rfl, rfl, rfl⟩
  unfold simLoop
  rw [hstep]

theorem C8_horizon_stops_loop_witness :
    popMin (initState drawsRun).events =
        some (Event.mk 1 EvType.input none, []) ∧
      pZero.endtime < (Event.mk 1 EvType.input none).time ∧
      (step pZero drawsRun (initState drawsRun) =
          some (StepOut.halt { initState drawsRun with events := [] }) ∧
        simLoop pZero drawsRun (0 + 1) (initState drawsRun) =
          some { initState drawsRun with events := [] } ∧
        ({ initState drawsRun with events := ([] : List Event) } :
            SimState).stats = (initState drawsRun).stats ∧
        ({ initState drawsRun with events := ([] : List Event) } :
            SimState).queue = (initState drawsRun).queue ∧
        ({ initState drawsRun with events := ([] : List Event) } :
            SimState).servers_occupied =
          (initState drawsRun).servers_occupied) :=
  ⟨by norm_num [popMin, initState, drawsRun], by norm_num [pZero],
    C8_horizon_stops_loop pZero drawsRun (initState drawsRun)
      (Event.mk 1 EvType.input none) [] 0
      (by norm_num [popMin, initState, drawsRun]) (by norm_num [pZero])⟩

/-- Claim C9: events are ordered as tuples `(time, kind code, payload)` with
Arrival code `0 < 1` Completion code, so a pending Completion is popped only
if its time is strictly before every pending Arrival with the same or later
time — at identical timestamps the Arrival is dispatched first. -/
theorem C9_arrival_dispatched_first (es : List Event) (m a : Event)
    (rest : List Event) (hpm : popMin es = some (m, rest))
    (hm : m.etype = EvType.done) (ha : a ∈ es)
    (hai : a.etype = EvType.input) :
    m.time < a.time ∧ kindCode EvType.input < kindCode EvType.done := by
  refine ⟨?_, by norm_num [kindCode]⟩
  have hle := popMin_min hpm a ha
  unfold evLe at hle
  rcases hle with h | ⟨ht, hk⟩
  · exact h
  · exfalso
    rw [hm, hai] at hk
    simp [kindCode] at hk

/-- Two pending events with identical structure to the tie situation: a
completion at time 1 and an arrival at time 2. -/
def esTie : List Event :=
  [Event.mk 2 EvType.input none, Event.mk 1 EvType.done (some 0)]

theorem C9_arrival_dispatched_first_witness :
    popMin esTie =
        some (Event.mk 1 EvType.done (some 0), [Event.mk 2 EvType.input none]) ∧
      (Event.mk 1 EvType.done (some 0)).etype = EvType.done ∧
      Event.mk 2 EvType.input none ∈ esTie ∧
      (Event.mk 2 EvType.input none).etype = EvType.input ∧
      ((Event.mk 1 EvType.done (some 0)).time <
          (Event.mk 2 EvType.input none).time ∧
        kindCode EvType.input < kindCode EvType.done) :=
  ⟨by norm_num [popMin, esTie, evLe, payLe, kindCode], rfl, by simp [esTie],
    rfl,
    C9_arrival_dispatched_first esTie (Event.mk 1 EvType.done (some 0))
      (Event.mk 2 EvType.input none) [Event.mk 2 EvType.input none]
      (by norm_num [popMin, esTie, evLe, payLe, kindCode]) rfl
      (by simp [esTie]) rfl⟩

/-- Claim C10: the statistics fields `completed_without_queueing` and
`completed_with_queueing` are initialised to zero (lines 54-55) and no
transition of the event loop ever touches them, so every successful run
returns them equal to zero. -/
theorem C10_dead_counters (p : Params) (draws : ℕ → ℚ) (fuel : ℕ)
    (f : FinalStats) (h : simulate p draws fuel = some f) :
    f.completed_without_queueing = 0 ∧ f.completed_with_queueing = 0 := by
  unfold simulate at h
  rcases Option.bind_eq_some.mp h with ⟨t, hloop, hfin⟩
  obtain ⟨s₀, ev, rest, hr, hpm, hh, rfl⟩ :=
    simLoop_final fuel (initState draws) t Reaches.init hloop
  have h0 := reaches_inv0 hr
  obtain ⟨_, _, _, _, hcwo, hcw, _, _⟩ := finalize_some hfin
  simp only at hcwo hcw
  rw [hcwo, hcw]
  exact ⟨h0.no_q_zero, h0.with_q_zero⟩

theorem C10_dead_counters_witness :
    simulate pRun drawsRun 10 = some fRun ∧
      (fRun.completed_without_queueing = 0 ∧
        fRun.completed_with_queueing = 0) :=
  ⟨simulate_pRun_eq,
    C10_dead_counters pRun drawsRun 10 fRun simulate_pRun_eq⟩
